import Mathlib

/-!
Verification of the RTNeural dense/GRU compute kernels (ranges fork).

The definitions below are shallow embeddings of the C++ sources:
* `src/RTNeural/dense/dense_ranges.h` — dynamic `Dense` and static `DenseT`
  (weights and bias stored separately);
* `src/unnamed/part_001` — a revision of the same header where the dynamic
  `Dense` folds the bias into the last slot of each weight row;
* `src/unnamed/part_000` — the Eigen GRU layer (`gru_eigen.tpp`): dynamic
  `GRULayer` and static `GRULayerT` with sample-rate correction.

Scalars are modelled by an arbitrary commutative ring (the C++ code is
templated over the scalar type `T`).  `memcpy` calls whose count argument is
an element count rather than a byte count are modelled byte-accurately at the
element granularity: the model is parametrised by `sizeofT` (bytes per
element) and an abstract `mix` function standing for the value of an element
only partially inside the copied byte range (such a byte-mixed value is not
expressible over an abstract scalar; for the real semantics `mix src dst`
keeps `dst`'s bytes beyond the copied prefix, which justifies the law
`mix a (mix b c) = mix a c` assumed where needed).  The GRU forward step
itself lives in `gru_eigen.h`, which is not part of the excerpt, so it is
modelled from the spec where needed (marked `Modelled from the spec`).
-/

namespace RTNeural

variable {α : Type} [CommRing α]

/-! ## Dense layer (dense_ranges.h) -/

/-- `AddMultiply::operator()` (dense_ranges.h:17-29): given a tuple `t` and an
accumulator `e`, returns `e + t.1 * t.2` (the `* (Numeric)1` factor of the
source is dropped, being the multiplicative identity). -/
def addMultiply (t : α × α) (e : α) : α := e + t.1 * t.2

/-- `Dense::forward` (dense_ranges.h:71-84): for every output unit, fold
`AddMultiply` over the zipped weight row and input, starting from the bias:
`transform(zip(weights, repeat(input), bias)) ∘ fold_right`. -/
def denseForward (weights : List (List α)) (bias : List α) (input : List α) :
    List α :=
  (weights.zip bias).map (fun wb => (wb.1.zip input).foldr addMultiply wb.2)

/-- Static dense layer state (`DenseT`, dense_ranges.h:136-219): sizes are part
of the type, storage is fixed-size. -/
structure DenseTState (inS outS : ℕ) (α : Type) where
  weights : Fin outS → Fin inS → α
  bias : Fin outS → α

/-- `DenseT::forward` (dense_ranges.h:166-179): identical fold to the dynamic
version, over the fixed-size storage. -/
def denseTForward {inS outS : ℕ} (st : DenseTState inS outS α)
    (ins : Fin inS → α) : Fin outS → α :=
  fun j =>
    ((List.ofFn (st.weights j)).zip (List.ofFn ins)).foldr addMultiply (st.bias j)

/-! ## Dense layer, bias-in-row revision (src/unnamed/part_001) -/

/-- Dynamic `Dense` state of the part_001 revision: each weight row carries
`in_size` weights plus the bias in slot `in_size`; `inVec` is the persistent
extended input vector whose last slot is set to `1` at construction. -/
structure DenseP1 (α : Type) where
  in_size : ℕ
  out_size : ℕ
  weights : List (List α)
  inVec : List α

/-- `Dense::Dense(int,int)` (part_001:39-52): rows of length `in_size+1`
zero-filled, `inVec` zero with `inVec[in_size] = 1`. -/
def mkDenseP1 (i o : ℕ) : DenseP1 α :=
  { in_size := i
    out_size := o
    weights := List.replicate o (List.replicate (i + 1) 0)
    inVec := (List.replicate (i + 1) (0 : α)).set i 1 }

/-- `memcpy(dst, src, bytes)` over an array of elements of `sizeofT` bytes
each, at element granularity: element `i` is fully overwritten by `src[i]`
when its byte range `[i*sizeofT, (i+1)*sizeofT)` lies inside the copied
prefix `[0, bytes)`, becomes the byte-mixed value `mix src[i] dst[i]` when
the prefix ends strictly inside it, and is untouched beyond the prefix.
A source read past `src`'s end (a caller-contract violation in the C++)
defaults to `0`. -/
def memcpyCount (sizeofT bytes : ℕ) (mix : α → α → α) (dst src : List α) :
    List α :=
  dst.mapIdx (fun i v =>
    if (i + 1) * sizeofT ≤ bytes then src.getD i 0
    else if i * sizeofT < bytes then mix (src.getD i 0) v
    else v)

/-- `Dense::forward` (part_001:69-83): runs
`memcpy(inVec.data(), input, Layer<T>::in_size)` — `in_size` BYTES, not
elements, so for a `sizeofT`-byte scalar only the first
`in_size / sizeofT` input elements fully reach `inVec` — then folds each
row against `inVec` starting from `0`.  Returns the updated layer and the
output vector. -/
def denseForwardP1 (sizeofT : ℕ) (mix : α → α → α) (st : DenseP1 α)
    (input : List α) : DenseP1 α × List α :=
  let iv := memcpyCount sizeofT st.in_size mix st.inVec input
  ({ st with inVec := iv },
    st.weights.map (fun w => (w.zip iv).foldr addMultiply 0))

/-- A forward-call history: the inputs fed to `forward` in order, keeping the
layer state (the C++ discards the outputs it wrote into the caller buffer). -/
def applyForwardsP1 (sizeofT : ℕ) (mix : α → α → α) (hist : List (List α))
    (st : DenseP1 α) : DenseP1 α :=
  hist.foldl (fun s y => (denseForwardP1 sizeofT mix s y).1) st

/-- `Dense::setWeights(vector)` (part_001:91-97): each loop iteration runs
`std::copy(newWeights.begin(), newWeights.end(), weights.begin())`, replacing
the first `newWeights.length` stored rows wholesale (vector assignment swaps
the whole row, including its length); the loop body does not depend on `i`,
and does not run at all when `out_size = 0`. -/
def setWeightsP1 (nw : List (List α)) (st : DenseP1 α) : DenseP1 α :=
  if st.out_size = 0 then st
  else { st with weights := nw ++ st.weights.drop nw.length }

/-- `Dense::setBias` (part_001:115-121): writes `b[i]` into slot `in_size` of
row `i` for `i < out_size`; a write past the end of a row (undefined behaviour
in the source) is modelled as dropped (`List.set` out of range). -/
def setBiasP1 (b : List α) (st : DenseP1 α) : DenseP1 α :=
  { st with
    weights := st.weights.mapIdx (fun i row =>
      if i < st.out_size then row.set st.in_size (b.getD i 0) else row) }

/-- `Dense::getBias` (part_001:127): reads slot `in_size` of row `i`;
`none` models an out-of-bounds read. -/
def getBiasP1 (st : DenseP1 α) (i : ℕ) : Option α :=
  (st.weights.getD i []).get? st.in_size

/-- `Dense::getWeight` (part_001:124). -/
def getWeightP1 (st : DenseP1 α) (i k : ℕ) : α :=
  (st.weights.getD i []).getD k 0

/-! ## Affine-map lemmas for the dense folds -/

theorem foldr_addMultiply_zip (w x : List α) (e : α) (h : w.length = x.length) :
    (w.zip x).foldr addMultiply e
      = e + ∑ i ∈ Finset.range x.length, w.getD i 0 * x.getD i 0 := by
  induction w generalizing x e with
  | nil =>
    have hx : x = [] := by
      cases x with
      | nil => rfl
      | cons a l => simp at h
    subst hx
    simp [addMultiply]
  | cons a w ih =>
    cases x with
    | nil => simp at h
    | cons b x =>
      have h' : w.length = x.length := by simpa using h
      simp only [List.zip_cons_cons, List.foldr_cons, addMultiply, ih x e h']
      rw [List.length_cons, Finset.sum_range_succ']
      simp only [List.getD_cons_succ, List.getD_cons_zero]
      ring

theorem denseForward_getD (W : List (List α)) (b x : List α) (j : ℕ)
    (hjW : j < W.length) (hjb : j < b.length)
    (hrow : (W.getD j []).length = x.length) :
    (denseForward W b x).getD j 0
      = b.getD j 0 + ∑ i ∈ Finset.range x.length, (W.getD j []).getD i 0 * x.getD i 0 := by
  have hzip : j < (W.zip b).length := by
    rw [List.length_zip]; omega
  have hmap : j < ((W.zip b).map (fun wb => (wb.1.zip x).foldr addMultiply wb.2)).length := by
    simpa using hzip
  rw [denseForward, List.getD_eq_getElem _ _ hmap, List.getElem_map, List.getElem_zip]
  rw [List.getD_eq_getElem W [] hjW, List.getD_eq_getElem b 0 hjb] at *
  exact foldr_addMultiply_zip _ _ _ hrow

theorem denseTForward_eq {inS outS : ℕ} (st : DenseTState inS outS α)
    (ins : Fin inS → α) (j : Fin outS) :
    denseTForward st ins j = st.bias j + ∑ k : Fin inS, st.weights j k * ins k := by
  rw [denseTForward, foldr_addMultiply_zip _ _ _ (by simp)]
  congr 1
  rw [List.length_ofFn]
  rw [← Fin.sum_univ_eq_sum_range
    (fun i => (List.ofFn (st.weights j)).getD i 0 * (List.ofFn ins).getD i 0) inS]
  apply Finset.sum_congr rfl
  intro k _
  rw [List.getD_eq_getElem _ _ (by simp [k.isLt]), List.getD_eq_getElem _ _ (by simp [k.isLt])]
  simp

/-! ## Claim C1: the dense forward pass vs the affine map -/

/-- C1 (code-bug exhibit): the dense_ranges.h `Dense::forward` does compute
the affine map — the spec's concrete example gives `11.5` — but part_001's
`Dense::forward` copies `in_size` BYTES of the input, so with 4-byte scalars
and `in_size = 2` no input element is fully copied into `inVec`: on the
stored row `[1, 2, 0.5]` the output is `mix 3 0 + 0.5` for every byte-mixing
semantics `mix`, and input slot `1` (the value `4`) never enters the
computation at all — inputs `[3,4]` and `[3,999]` produce identical outputs
where the claim demands `11.5` and `2001.5`.  Only with 1-byte scalars, when
the byte count coincides with the element count, does the example yield
`11.5`. -/
theorem dense_forward_byte_memcpy :
    denseForward [[1,2]] [(1:ℚ)/2] [3,4] = [23/2]
    ∧ (∀ (mix : ℚ → ℚ → ℚ),
        (denseForwardP1 4 mix (DenseP1.mk 2 1 [[1,2,1/2]] [0,0,1] : DenseP1 ℚ) [3,4]).2
          = [mix 3 0 + 1/2]
        ∧ (denseForwardP1 4 mix (DenseP1.mk 2 1 [[1,2,1/2]] [0,0,1] : DenseP1 ℚ) [3,4]).2
          = (denseForwardP1 4 mix (DenseP1.mk 2 1 [[1,2,1/2]] [0,0,1] : DenseP1 ℚ) [3,999]).2)
    ∧ (denseForwardP1 1 (fun a _ => a) (DenseP1.mk 2 1 [[1,2,1/2]] [0,0,1] : DenseP1 ℚ) [3,4]).2
      = [23/2] := by
  refine ⟨by norm_num [denseForward, addMultiply], fun mix => ⟨?_, ?_⟩, ?_⟩
  · simp [denseForwardP1, memcpyCount, addMultiply, List.mapIdx_cons]
    ring
  · simp [denseForwardP1, memcpyCount, addMultiply, List.mapIdx_cons]
  · norm_num [denseForwardP1, memcpyCount, addMultiply, List.mapIdx_cons]

/-! ## Claim C10: the static layer refines the dynamic layer -/

/-- C10: for every `in_size`, `out_size`, weight matrix, bias vector and input
vector, the runtime-sized `Dense::forward` and the compile-time-sized
`DenseT::forward` of dense_ranges.h, configured identically, produce identical
outputs. -/
theorem denseT_refines_dense {inS outS : ℕ} (st : DenseTState inS outS ℚ)
    (ins : Fin inS → ℚ) :
    denseForward (List.ofFn fun j => List.ofFn (st.weights j))
        (List.ofFn st.bias) (List.ofFn ins)
      = List.ofFn (denseTForward st ins) := by
  unfold denseForward
  apply List.ext_getElem
  · simp
  · intro j h1 h2
    rw [List.getElem_map, List.getElem_zip]
    simp only [List.getElem_ofFn]
    rfl

/-! ## GRU layers (src/unnamed/part_000, `gru_eigen.tpp`) -/

/-- `SampleRateCorrectionMode`: the three sample-rate-correction modes of the
static GRU layer. -/
inductive SRCMode where
  | None : SRCMode
  | NoInterp : SRCMode
  | LinInterp : SRCMode
deriving DecidableEq

/-- Dynamic `GRULayer` state (part_000:8-23): combined weight matrices
`W : (3·out) × (in+1)` and `U : (3·out) × (out+1)` (last column is the bias),
plus the two extended vectors whose final slot holds the constant `1`.
The scratch vectors `alphaVec/betaVec/gammaVec/cVec` (zero-initialised work
buffers of the forward pass, which is not part of the excerpt) are omitted. -/
structure GRULayerDyn (α : Type) where
  in_size : ℕ
  out_size : ℕ
  wCombined : List (List α)
  uCombined : List (List α)
  extendedInVec : List α
  extendedHt1 : List α

/-- `GRULayer::GRULayer(int,int)` (part_000:8-23): zero matrices and vectors,
then `extendedInVec(in_size) = 1`, `extendedHt1(out_size) = 1`. -/
def mkGRULayerDyn (i o : ℕ) : GRULayerDyn α :=
  { in_size := i
    out_size := o
    wCombined := List.replicate (3 * o) (List.replicate (i + 1) 0)
    uCombined := List.replicate (3 * o) (List.replicate (o + 1) 0)
    extendedInVec := (List.replicate (i + 1) (0 : α)).set i 1
    extendedHt1 := (List.replicate (o + 1) (0 : α)).set o 1 }

/-- `GRULayer::GRULayer(const GRULayer&)` (part_000:31-35): delegates to the
sizing constructor; nothing of `other` except its sizes is used. -/
def copyGRULayer (other : GRULayerDyn α) : GRULayerDyn α :=
  mkGRULayerDyn other.in_size other.out_size

/-- `GRULayer::operator=` (part_000:37-41): `return *this = GRULayer(other);`
re-invokes the same copy-assignment on the copy-constructed temporary (the
class declares a copy constructor and a copy assignment, so no move assignment
exists), i.e. the call never makes progress.  Modelled with explicit recursion
depth: `none` means the call did not complete within `fuel` nested calls. -/
def assignGRULayer : ℕ → GRULayerDyn α → GRULayerDyn α → Option (GRULayerDyn α)
  | 0, _, _ => none
  | fuel + 1, target, other => assignGRULayer fuel target (copyGRULayer other)

/-- `GRULayer::setWVals` (part_000:44-53): `wCombinedWeights(k, i) = wVals[i][k]`
for `i < in_size`, `k < 3·out_size`; the independent element writes of the
loop nest are modelled pointwise. -/
def setWValsDyn (wVals : List (List α)) (st : GRULayerDyn α) : GRULayerDyn α :=
  { st with
    wCombined := st.wCombined.mapIdx (fun k row => row.mapIdx (fun i v =>
      if i < st.in_size ∧ k < 3 * st.out_size then (wVals.getD i []).getD k 0 else v)) }

/-- `GRULayer::setUVals` (part_000:67-77): `uCombinedWeights(k, i) = uVals[i][k]`
for `i < out_size`, `k < 3·out_size`. -/
def setUValsDyn (uVals : List (List α)) (st : GRULayerDyn α) : GRULayerDyn α :=
  { st with
    uCombined := st.uCombined.mapIdx (fun k row => row.mapIdx (fun i v =>
      if i < st.out_size ∧ k < 3 * st.out_size then (uVals.getD i []).getD k 0 else v)) }

/-- `GRULayer::setBVals` (part_000:91-99): for `k < 3·out_size`, writes
`bVals[0][k]` into `W`'s bias column and `bVals[1][k]` into `U`'s. -/
def setBValsDyn (bVals : List (List α)) (st : GRULayerDyn α) : GRULayerDyn α :=
  { st with
    wCombined := st.wCombined.mapIdx (fun k row =>
      if k < 3 * st.out_size then row.set st.in_size ((bVals.getD 0 []).getD k 0) else row)
    uCombined := st.uCombined.mapIdx (fun k row =>
      if k < 3 * st.out_size then row.set st.out_size ((bVals.getD 1 []).getD k 0) else row) }

/-- Static `GRULayerT` state (part_000:139-196).  `outs` is the hidden state
vector (the layer's output), `outs_delayed` the sample-rate-correction delay
buffer. -/
structure GRUT (α : Type) where
  in_size : ℕ
  out_size : ℕ
  mode : SRCMode
  wCombined : List (List α)
  uCombined : List (List α)
  extendedInVec : List α
  extendedHt1 : List α
  outs : List α
  outs_delayed : List (List α)
  delayWriteIdx : ℤ
  delayMult : α
  delayPlus1Mult : α

/-- `GRULayerT::reset` (part_000:185-196): in the delayed modes every buffered
slot is zeroed; the hidden state `outs` is zeroed in every mode. -/
def reset (st : GRUT α) : GRUT α :=
  let st1 :=
    if st.mode = SRCMode.None then st
    else { st with outs_delayed :=
      st.outs_delayed.map (fun _ => List.replicate st.out_size (0 : α)) }
  { st1 with outs := List.replicate st.out_size 0 }

/-- `GRULayerT::GRULayerT` (part_000:139-157): zero weights and vectors, the
constant `1` written into the last slot of each extended vector, then
`reset()`.  `outs_delayed` starts empty; the delay bookkeeping fields start
zeroed. -/
def mkGRUT (i o : ℕ) (m : SRCMode) : GRUT α :=
  reset
    { in_size := i
      out_size := o
      mode := m
      wCombined := List.replicate (3 * o) (List.replicate (i + 1) 0)
      uCombined := List.replicate (3 * o) (List.replicate (o + 1) 0)
      extendedInVec := (List.replicate (i + 1) (0 : α)).set i 1
      extendedHt1 := (List.replicate (o + 1) (0 : α)).set o 1
      outs := List.replicate o 0
      outs_delayed := []
      delayWriteIdx := 0
      delayMult := 0
      delayPlus1Mult := 0 }

/-- `std::vector::resize(n, pad)`: truncate to `n` or extend with `pad`. -/
def listResize (l : List β) (n : ℕ) (pad : β) : List β :=
  l.take n ++ List.replicate (n - l.length) pad

/-- `GRULayerT::prepare(int)` (part_000:159-168), integer-delay mode only
(`enable_if` on `NoInterp`): `delayWriteIdx = delaySamples - 1`, buffer
resized to `delayWriteIdx + 1` slots, then `reset()`. -/
def prepareNoInterp (delaySamples : ℤ) (st : GRUT α) : GRUT α :=
  if st.mode = SRCMode.NoInterp then
    reset { st with
      delayWriteIdx := delaySamples - 1
      outs_delayed := listResize st.outs_delayed (delaySamples - 1 + 1).toNat
        (List.replicate st.out_size 0) }
  else st

/-- `GRULayerT::prepare(T)` (part_000:170-183), fractional-delay mode only
(`enable_if` on `LinInterp`): interpolation coefficients from the fractional
part, `delayWriteIdx = ⌈delaySamples⌉ - ⌈frac⌉`, buffer resized to
`delayWriteIdx + 1` slots, then `reset()`. -/
def prepareLinInterp {α : Type} [LinearOrderedField α] [FloorRing α]
    (delaySamples : α) (st : GRUT α) : GRUT α :=
  if st.mode = SRCMode.LinInterp then
    let delayOffFactor : α := delaySamples - (⌊delaySamples⌋ : ℤ)
    let widx : ℤ := ⌈delaySamples⌉ - ⌈delayOffFactor⌉
    reset { st with
      delayMult := 1 - delayOffFactor
      delayPlus1Mult := delayOffFactor
      delayWriteIdx := widx
      outs_delayed := listResize st.outs_delayed (widx + 1).toNat
        (List.replicate st.out_size 0) }
  else st

/-- `GRULayerT::setWVals` (part_000:199-209): same loop nest as the dynamic
layer. -/
def setWValsT (wVals : List (List α)) (st : GRUT α) : GRUT α :=
  { st with
    wCombined := st.wCombined.mapIdx (fun k row => row.mapIdx (fun i v =>
      if i < st.in_size ∧ k < 3 * st.out_size then (wVals.getD i []).getD k 0 else v)) }

/-- `GRULayerT::setUVals` (part_000:212-222): same loop nest as the dynamic
layer. -/
def setUValsT (uVals : List (List α)) (st : GRUT α) : GRUT α :=
  { st with
    uCombined := st.uCombined.mapIdx (fun k row => row.mapIdx (fun i v =>
      if i < st.out_size ∧ k < 3 * st.out_size then (uVals.getD i []).getD k 0 else v)) }

/-- `GRULayerT::setBVals` (part_000:225-233): bias-column writes — note the
loop bound of the source is `k < out_size` (its dynamic counterpart and the
adjacent `setUVals` loop use `out_size * 3`). -/
def setBValsT (bVals : List (List α)) (st : GRUT α) : GRUT α :=
  { st with
    wCombined := st.wCombined.mapIdx (fun k row =>
      if k < st.out_size then row.set st.in_size ((bVals.getD 0 []).getD k 0) else row)
    uCombined := st.uCombined.mapIdx (fun k row =>
      if k < st.out_size then row.set st.out_size ((bVals.getD 1 []).getD k 0) else row) }

/-- `W·v` for a combined weight matrix stored row-wise. -/
def matVec (m : List (List α)) (v : List α) : List α :=
  m.map (fun row => ((row.zip v).map (fun p => p.1 * p.2)).sum)

/-- Modelled from the spec: the GRU forward step (`GRULayerT::forward` lives in
`gru_eigen.h`, which is not part of src/).  Forms the extended vectors
`x̂ = [x, 1]` and `ĥ = [h, 1]` by writing into the first `in_size`
(resp. `out_size`) slots, computes the gate pre-activations `g_x = W·x̂`,
`g_h = U·ĥ`, splits them into the reset/update/candidate blocks, and applies
`r = sigma(r_x + r_h)`, `z = sigma(z_x + z_h)`, `n = tau(n_x + r ⊙ n_h)`,
`h' = (1 - z) ⊙ n + z ⊙ h`. -/
def gruStep (sigma tau : α → α) (st : GRUT α) (x : List α) : GRUT α :=
  let o := st.out_size
  let xhat := x.take st.in_size ++ st.extendedInVec.drop st.in_size
  let hhat := st.outs.take o ++ st.extendedHt1.drop o
  let gx := matVec st.wCombined xhat
  let gh := matVec st.uCombined hhat
  let r := List.zipWith (fun a b => sigma (a + b)) (gx.take o) (gh.take o)
  let z := List.zipWith (fun a b => sigma (a + b)) ((gx.drop o).take o) ((gh.drop o).take o)
  let n := List.zipWith (fun a b => tau (a + b)) ((gx.drop (2 * o)).take o)
    (List.zipWith (fun a b => a * b) r ((gh.drop (2 * o)).take o))
  let h := List.zipWith (fun a b => a + b)
    (List.zipWith (fun zi ni => (1 - zi) * ni) z n)
    (List.zipWith (fun a b => a * b) z st.outs)
  { st with outs := h, extendedInVec := xhat, extendedHt1 := hhat }

/-- Modelled from the spec: one full processed sample — kernel step plus the
sample-rate-correction stage (§4.4).  `None` is pass-through; `NoInterp`
enqueues the fresh output and returns the oldest buffered entry; `LinInterp`
additionally blends the two slots bracketing the fractional offset with
`delayMult`/`delayPlus1Mult`. -/
def gruProcess (sigma tau : α → α) (st : GRUT α) (x : List α) :
    GRUT α × List α :=
  let st1 := gruStep sigma tau st x
  match st1.mode with
  | SRCMode.None => (st1, st1.outs)
  | SRCMode.NoInterp =>
    let buf := st1.outs_delayed ++ [st1.outs]
    ({ st1 with outs_delayed := buf.tail },
      buf.headD (List.replicate st1.out_size 0))
  | SRCMode.LinInterp =>
    let buf := st1.outs_delayed.tail ++ [st1.outs]
    let w := st1.delayWriteIdx.toNat
    let zeroV := List.replicate st1.out_size (0 : α)
    ({ st1 with outs_delayed := buf },
      List.zipWith (fun a b => a + b)
        ((buf.getD w zeroV).map (fun v => st1.delayMult * v))
        ((buf.getD (w + 1) zeroV).map (fun v => st1.delayPlus1Mult * v)))

/-- Streaming run: feed the inputs in order, collecting the produced outputs. -/
def runGRU (sigma tau : α → α) : GRUT α → List (List α) → List (List α)
  | _, [] => []
  | st, x :: xs =>
    let p := gruProcess sigma tau st x
    p.2 :: runGRU sigma tau p.1 xs

/-- The operations a client can perform on a `GRULayerT` after construction. -/
inductive GOp (α : Type) where
  | reset : GOp α
  | prepNI : ℤ → GOp α
  | prepLI : α → GOp α
  | setW : List (List α) → GOp α
  | setU : List (List α) → GOp α
  | setB : List (List α) → GOp α
  | step : List α → GOp α

/-- Interpretation of one operation on the layer state. -/
def applyOp {α : Type} [LinearOrderedField α] [FloorRing α] (sigma tau : α → α)
    (st : GRUT α) : GOp α → GRUT α
  | GOp.reset => reset st
  | GOp.prepNI d => prepareNoInterp d st
  | GOp.prepLI d => prepareLinInterp d st
  | GOp.setW v => setWValsT v st
  | GOp.setU v => setUValsT v st
  | GOp.setB v => setBValsT v st
  | GOp.step x => (gruProcess sigma tau st x).1

/-- A whole client session: the operations applied in order. -/
def applyOps {α : Type} [LinearOrderedField α] [FloorRing α] (sigma tau : α → α)
    (ops : List (GOp α)) (st : GRUT α) : GRUT α :=
  ops.foldl (applyOp sigma tau) st

/-! ## Claim C3: the static `setBVals` loop bound -/

/-- C3 (code-bug exhibit): with `out_size = 1` and all-ones bias sources, the
static `GRULayerT::setBVals` fills only bias row `0` of each combined matrix
(its loop runs `k < out_size`), leaving rows `out_size ≤ k < 3·out_size`
zero, while the dynamic `GRULayer::setBVals` fills all `3·out_size` rows. -/
theorem setBVals_bias_column :
    ((((setBValsT [[1,1,1],[1,1,1]] (mkGRUT 1 1 SRCMode.None : GRUT ℤ)).wCombined.map
        (fun r => r.getD 1 0)) = [1, 0, 0])
      ∧ (((setBValsT [[1,1,1],[1,1,1]] (mkGRUT 1 1 SRCMode.None : GRUT ℤ)).uCombined.map
        (fun r => r.getD 1 0)) = [1, 0, 0]))
    ∧ ((((setBValsDyn [[1,1,1],[1,1,1]] (mkGRULayerDyn 1 1 : GRULayerDyn ℤ)).wCombined.map
        (fun r => r.getD 1 0)) = [1, 1, 1])
      ∧ (((setBValsDyn [[1,1,1],[1,1,1]] (mkGRULayerDyn 1 1 : GRULayerDyn ℤ)).uCombined.map
        (fun r => r.getD 1 0)) = [1, 1, 1])) := by
  decide

/-! ## Claim C5: the dense weight/bias round trip -/

/-- C5 (code-bug exhibit, part_001 revision): on a fresh `Dense(2,1)` the bias
round-trips (`setBias` then `getBias` returns the value set), but
`setWeights([[1,2]])` replaces the stored row (length `in_size+1`, bias in the
last slot) with the bare length-`in_size` source row — despite its own comment
`Should leave the bias alone` — so a subsequent `setBias`/`getBias` addresses
slot `in_size` past the end of the row: the set value is lost and the read is
out of bounds, while the plain weight entries still round-trip. -/
theorem dense_round_trip_broken :
    (getBiasP1 (setBiasP1 [7] (mkDenseP1 2 1 : DenseP1 ℤ)) 0 = some 7)
    ∧ (((setWeightsP1 [[1,2]] (mkDenseP1 2 1 : DenseP1 ℤ)).weights.getD 0 []).length = 2)
    ∧ (getBiasP1 (setBiasP1 [7] (setWeightsP1 [[1,2]] (mkDenseP1 2 1 : DenseP1 ℤ))) 0 = none)
    ∧ (getWeightP1 (setBiasP1 [7] (setWeightsP1 [[1,2]] (mkDenseP1 2 1 : DenseP1 ℤ))) 0 0 = 1)
    ∧ (getWeightP1 (setBiasP1 [7] (setWeightsP1 [[1,2]] (mkDenseP1 2 1 : DenseP1 ℤ))) 0 1 = 2) := by
  decide

/-! ## Claim C4: delay-buffer sizing -/

/-- C4 counterexample: `prepare(2)` in integer-delay mode leaves a buffer of
`2` slots, not `ceil(2)+1 = 3`; `prepare(3/2)` in fractional mode leaves `2`
slots, not `ceil(3/2)+1 = 3`. -/
theorem listResize_length (l : List β) (n : ℕ) (pad : β) :
    (listResize l n pad).length = n := by
  simp [listResize]
  omega

theorem reset_outs_delayed_length (st : GRUT α) :
    (reset st).outs_delayed.length = st.outs_delayed.length := by
  unfold reset
  by_cases h : st.mode = SRCMode.None <;> simp [h]

theorem ceil_three_halves : (⌈(3/2 : ℚ)⌉ : ℤ) = 2 := by
  rw [Int.ceil_eq_iff]; norm_num

/-- C4 counterexample: `prepare(2)` in integer-delay mode leaves a buffer of
`2` slots, not `ceil(2)+1 = 3`; `prepare(3/2)` in fractional mode leaves `2`
slots, not `ceil(3/2)+1 = 3`. -/
theorem prepare_buffer_size_counterexample :
    ((prepareNoInterp 2 (mkGRUT 1 1 SRCMode.NoInterp : GRUT ℤ)).outs_delayed.length = 2
      ∧ (2 : ℕ) ≠ ((2 : ℤ) + 1).toNat)
    ∧ ((prepareLinInterp (3/2 : ℚ) (mkGRUT 1 1 SRCMode.LinInterp : GRUT ℚ)).outs_delayed.length = 2
      ∧ (2 : ℕ) ≠ (⌈(3/2 : ℚ)⌉ + 1).toNat) := by
  refine ⟨⟨by decide, by decide⟩, ?_, ?_⟩
  · rw [prepareLinInterp, if_pos (by decide), reset_outs_delayed_length, listResize_length]
    have h1 : (⌊(3/2 : ℚ)⌋ : ℤ) = 1 := by norm_num
    have h2 : (3/2 : ℚ) - ((1:ℤ) : ℚ) = 1/2 := by norm_num
    have h3 : (⌈(1/2 : ℚ)⌉ : ℤ) = 1 := by
      rw [Int.ceil_eq_iff]; norm_num
    rw [h1, h2, h3, ceil_three_halves]
    decide
  · rw [ceil_three_halves]
    decide

/-- C4 amended: after `prepare(delaySamples)` the buffer holds exactly
`delaySamples` slots in integer-delay mode, and
`⌈delaySamples⌉ - ⌈delaySamples - ⌊delaySamples⌋⌉ + 1` slots in
fractional-delay mode (both as written in the source, clamped at zero). -/
theorem prepare_buffer_size (st : GRUT ℚ) (ds : ℤ) (dq : ℚ) :
    (st.mode = SRCMode.NoInterp →
      (prepareNoInterp ds st).outs_delayed.length = ds.toNat)
    ∧ (st.mode = SRCMode.LinInterp →
      (prepareLinInterp dq st).outs_delayed.length
        = (⌈dq⌉ - ⌈dq - (⌊dq⌋ : ℤ)⌉ + 1).toNat) := by
  constructor
  · intro h
    rw [prepareNoInterp, if_pos h, reset_outs_delayed_length]
    simp only [listResize_length]
    congr 1
    omega
  · intro h
    rw [prepareLinInterp, if_pos h, reset_outs_delayed_length]
    simp only [listResize_length]

/-- Witness for C4's amended theorem: both modes at concrete delays. -/
theorem prepare_buffer_size_witness :
    ((prepareNoInterp 3 (mkGRUT 1 1 SRCMode.NoInterp : GRUT ℚ)).outs_delayed.length
      = (3 : ℤ).toNat)
    ∧ ((prepareLinInterp (3/2 : ℚ) (mkGRUT 1 1 SRCMode.LinInterp : GRUT ℚ)).outs_delayed.length
      = (⌈(3/2 : ℚ)⌉ - ⌈(3/2 : ℚ) - ((⌊(3/2 : ℚ)⌋ : ℤ) : ℚ)⌉ + 1).toNat) :=
  ⟨(prepare_buffer_size (mkGRUT 1 1 SRCMode.NoInterp) 3 0).1 (by decide),
    (prepare_buffer_size (mkGRUT 1 1 SRCMode.LinInterp) 0 (3/2)).2 (by decide)⟩

/-! ## Claim C6: reset is idempotent and restores silence -/

theorem reset_reset (st : GRUT α) : reset (reset st) = reset st := by
  unfold reset
  by_cases h : st.mode = SRCMode.None <;>
    simp [h, List.map_map, Function.comp]

theorem reset_mode (st : GRUT α) : (reset st).mode = st.mode := by
  unfold reset
  by_cases h : st.mode = SRCMode.None <;> simp [h]

theorem reset_in_size (st : GRUT α) : (reset st).in_size = st.in_size := by
  unfold reset
  by_cases h : st.mode = SRCMode.None <;> simp [h]

theorem reset_out_size (st : GRUT α) : (reset st).out_size = st.out_size := by
  unfold reset
  by_cases h : st.mode = SRCMode.None <;> simp [h]

theorem applyOp_sizes {α : Type} [LinearOrderedField α] [FloorRing α]
    (sigma tau : α → α) (st : GRUT α) (op : GOp α) :
    (applyOp sigma tau st op).in_size = st.in_size
    ∧ (applyOp sigma tau st op).out_size = st.out_size
    ∧ (applyOp sigma tau st op).mode = st.mode := by
  cases op with
  | reset => exact ⟨reset_in_size st, reset_out_size st, reset_mode st⟩
  | prepNI d =>
    unfold applyOp prepareNoInterp
    by_cases h : st.mode = SRCMode.NoInterp <;>
      simp [h, reset_in_size, reset_out_size, reset_mode]
  | prepLI d =>
    unfold applyOp prepareLinInterp
    by_cases h : st.mode = SRCMode.LinInterp <;>
      simp [h, reset_in_size, reset_out_size, reset_mode]
  | setW v => exact ⟨rfl, rfl, rfl⟩
  | setU v => exact ⟨rfl, rfl, rfl⟩
  | setB v => exact ⟨rfl, rfl, rfl⟩
  | step x =>
    unfold applyOp gruProcess
    cases hm : (gruStep sigma tau st x).mode <;> simp [gruStep] at hm ⊢ <;>
      simp [hm, gruStep]

theorem applyOps_sizes {α : Type} [LinearOrderedField α] [FloorRing α]
    (sigma tau : α → α) (ops : List (GOp α)) (st : GRUT α) :
    (applyOps sigma tau ops st).in_size = st.in_size
    ∧ (applyOps sigma tau ops st).out_size = st.out_size
    ∧ (applyOps sigma tau ops st).mode = st.mode := by
  induction ops generalizing st with
  | nil => exact ⟨rfl, rfl, rfl⟩
  | cons op ops ih =>
    have h1 := applyOp_sizes sigma tau st op
    have h2 := ih (applyOp sigma tau st op)
    simp only [applyOps, List.foldl_cons] at h2 ⊢
    exact ⟨h2.1.trans h1.1, h2.2.1.trans h1.2.1, h2.2.2.trans h1.2.2⟩

theorem reset_outs (st : GRUT α) : (reset st).outs = List.replicate st.out_size 0 := by
  unfold reset
  by_cases h : st.mode = SRCMode.None <;> simp [h]

theorem reset_outs_delayed_of_eq (st : GRUT α) (h : st.mode = SRCMode.None) :
    (reset st).outs_delayed = st.outs_delayed := by
  unfold reset
  simp [h]

theorem reset_outs_delayed_of_ne (st : GRUT α) (h : ¬st.mode = SRCMode.None) :
    (reset st).outs_delayed
      = st.outs_delayed.map (fun _ => List.replicate st.out_size 0) := by
  unfold reset
  simp [h]

theorem mkGRUT_sizes (i o : ℕ) (m : SRCMode) :
    (mkGRUT i o m : GRUT α).in_size = i ∧ (mkGRUT i o m : GRUT α).out_size = o
    ∧ (mkGRUT i o m : GRUT α).mode = m :=
  ⟨reset_in_size _, reset_out_size _, reset_mode _⟩

theorem mkGRUT_outs_delayed (i o : ℕ) (m : SRCMode) :
    (mkGRUT i o m : GRUT α).outs_delayed = [] := by
  unfold mkGRUT reset
  by_cases h : m = SRCMode.None <;> simp [h]

theorem applyOp_none_outs_delayed {α : Type} [LinearOrderedField α] [FloorRing α]
    (sigma tau : α → α) (st : GRUT α) (op : GOp α) (h : st.mode = SRCMode.None) :
    (applyOp sigma tau st op).outs_delayed = st.outs_delayed := by
  cases op with
  | reset => exact reset_outs_delayed_of_eq st h
  | prepNI d => simp [applyOp, prepareNoInterp, h]
  | prepLI d => simp [applyOp, prepareLinInterp, h]
  | setW v => rfl
  | setU v => rfl
  | setB v => rfl
  | step x =>
    have hm : (gruStep sigma tau st x).mode = SRCMode.None := h
    simp only [applyOp, gruProcess, hm]
    rfl

theorem applyOps_none_outs_delayed {α : Type} [LinearOrderedField α] [FloorRing α]
    (sigma tau : α → α) (ops : List (GOp α)) (st : GRUT α)
    (h : st.mode = SRCMode.None) :
    (applyOps sigma tau ops st).outs_delayed = st.outs_delayed := by
  induction ops generalizing st with
  | nil => rfl
  | cons op ops ih =>
    have h1 := applyOp_none_outs_delayed sigma tau st op h
    have hm : (applyOp sigma tau st op).mode = SRCMode.None :=
      ((applyOp_sizes sigma tau st op).2.2).trans h
    have h2 := ih (applyOp sigma tau st op) hm
    simp only [applyOps, List.foldl_cons] at h2 ⊢
    exact h2.trans h1

/-- C6: in every sample-rate-correction mode, `reset()` is idempotent, and
after `reset()` — regardless of the construction-and-processing history that
produced the state — the hidden state vector is exactly zero and every
delay-buffer slot is exactly zero. -/
theorem reset_idempotent_zeroing :
    (∀ (st : GRUT ℚ), reset (reset st) = reset st)
    ∧ (∀ (i o : ℕ) (m : SRCMode) (sigma tau : ℚ → ℚ) (ops : List (GOp ℚ)),
        (reset (applyOps sigma tau ops (mkGRUT i o m))).outs = List.replicate o 0
        ∧ ∀ v ∈ (reset (applyOps sigma tau ops (mkGRUT i o m))).outs_delayed,
            v = List.replicate o 0) := by
  refine ⟨reset_reset, fun i o m sigma tau ops => ?_⟩
  have hsz := applyOps_sizes sigma tau ops (mkGRUT i o m)
  have ho : (applyOps sigma tau ops (mkGRUT i o m)).out_size = o :=
    hsz.2.1.trans (mkGRUT_sizes i o m).2.1
  constructor
  · rw [reset_outs (applyOps sigma tau ops (mkGRUT i o m)), ho]
  · intro v hv
    by_cases hm : (applyOps sigma tau ops (mkGRUT i o m)).mode = SRCMode.None
    · have hmk : (mkGRUT i o m : GRUT ℚ).mode = SRCMode.None :=
        hsz.2.2.symm.trans hm
      rw [reset_outs_delayed_of_eq _ hm,
        applyOps_none_outs_delayed sigma tau ops _ hmk,
        mkGRUT_outs_delayed] at hv
      simp at hv
    · rw [reset_outs_delayed_of_ne _ hm] at hv
      rcases List.mem_map.mp hv with ⟨w, _, hw⟩
      rw [← hw, ho]

/-! ## Claim C7: the appended constant `1` of the extended vectors -/

theorem getD_drop_zero (l : List β) (n : ℕ) (d : β) :
    (l.drop n).getD 0 d = l.getD n d := by
  simp [List.getD_eq_getElem?_getD, List.getElem?_drop]

theorem reset_wCombined (st : GRUT α) : (reset st).wCombined = st.wCombined := by
  unfold reset
  by_cases h : st.mode = SRCMode.None <;> simp [h]

theorem reset_uCombined (st : GRUT α) : (reset st).uCombined = st.uCombined := by
  unfold reset
  by_cases h : st.mode = SRCMode.None <;> simp [h]

theorem reset_extendedInVec (st : GRUT α) :
    (reset st).extendedInVec = st.extendedInVec := by
  unfold reset
  by_cases h : st.mode = SRCMode.None <;> simp [h]

theorem reset_extendedHt1 (st : GRUT α) :
    (reset st).extendedHt1 = st.extendedHt1 := by
  unfold reset
  by_cases h : st.mode = SRCMode.None <;> simp [h]

/-- The structural well-formedness the GRU state maintains: the stored sizes
describe the stored vectors, and the final slot of each extended vector holds
the constant `1`. -/
def gruWF (st : GRUT α) : Prop :=
  st.outs.length = st.out_size
  ∧ st.wCombined.length = 3 * st.out_size
  ∧ st.uCombined.length = 3 * st.out_size
  ∧ st.extendedInVec.getD st.in_size 0 = 1
  ∧ st.extendedHt1.getD st.out_size 0 = 1

theorem reset_wf (st : GRUT α) (h : gruWF st) : gruWF (reset st) := by
  obtain ⟨h1, h2, h3, h4, h5⟩ := h
  refine ⟨?_, ?_, ?_, ?_, ?_⟩
  · rw [reset_outs, reset_out_size]
    simp
  · rw [reset_wCombined, reset_out_size]
    exact h2
  · rw [reset_uCombined, reset_out_size]
    exact h3
  · rw [reset_extendedInVec, reset_in_size]
    exact h4
  · rw [reset_extendedHt1, reset_out_size]
    exact h5

theorem mkGRUT_wf (i o : ℕ) (m : SRCMode) : gruWF (mkGRUT i o m : GRUT α) := by
  apply reset_wf
  refine ⟨by simp, by simp, by simp, ?_, ?_⟩
  · have hlen : i < ((List.replicate (i + 1) (0:α)).set i 1).length := by simp
    rw [List.getD_eq_getElem _ _ hlen, List.getElem_set_self]
  · have hlen : o < ((List.replicate (o + 1) (0:α)).set o 1).length := by simp
    rw [List.getD_eq_getElem _ _ hlen, List.getElem_set_self]

theorem gruStep_wCombined (sigma tau : α → α) (st : GRUT α) (x : List α) :
    (gruStep sigma tau st x).wCombined = st.wCombined := rfl

theorem gruStep_wf (sigma tau : α → α) (st : GRUT α) (x : List α)
    (h : gruWF st) (hx : x.length = st.in_size) :
    gruWF (gruStep sigma tau st x) := by
  obtain ⟨h1, h2, h3, h4, h5⟩ := h
  refine ⟨?_, h2, h3, ?_, ?_⟩
  · show (gruStep sigma tau st x).outs.length = st.out_size
    simp only [gruStep, matVec]
    simp [List.length_zipWith, h1, h2, h3]
    omega
  · show (x.take st.in_size ++ st.extendedInVec.drop st.in_size).getD st.in_size 0 = 1
    have hlen : (x.take st.in_size).length = st.in_size := by
      simp [hx]
    rw [List.getD_append_right _ _ _ _ (by omega), hlen, Nat.sub_self, getD_drop_zero]
    exact h4
  · show (st.outs.take st.out_size ++ st.extendedHt1.drop st.out_size).getD st.out_size 0 = 1
    have hlen : (st.outs.take st.out_size).length = st.out_size := by
      simp [h1]
    rw [List.getD_append_right _ _ _ _ (by omega), hlen, Nat.sub_self, getD_drop_zero]
    exact h5

theorem applyOp_wf {α : Type} [LinearOrderedField α] [FloorRing α]
    (sigma tau : α → α) (st : GRUT α) (op : GOp α) (h : gruWF st)
    (hop : ∀ x, op = GOp.step x → x.length = st.in_size) :
    gruWF (applyOp sigma tau st op) := by
  cases op with
  | reset => exact reset_wf st h
  | prepNI d =>
    show gruWF (prepareNoInterp d st)
    unfold prepareNoInterp
    by_cases hm : st.mode = SRCMode.NoInterp
    · rw [if_pos hm]
      exact reset_wf _ h
    · rw [if_neg hm]
      exact h
  | prepLI d =>
    show gruWF (prepareLinInterp d st)
    unfold prepareLinInterp
    by_cases hm : st.mode = SRCMode.LinInterp
    · rw [if_pos hm]
      exact reset_wf _ h
    · rw [if_neg hm]
      exact h
  | setW v =>
    refine ⟨h.1, ?_, h.2.2.1, h.2.2.2.1, h.2.2.2.2⟩
    show ((setWValsT v st).wCombined).length = 3 * st.out_size
    simp only [setWValsT, List.length_mapIdx]
    exact h.2.1
  | setU v =>
    refine ⟨h.1, h.2.1, ?_, h.2.2.2.1, h.2.2.2.2⟩
    show ((setUValsT v st).uCombined).length = 3 * st.out_size
    simp only [setUValsT, List.length_mapIdx]
    exact h.2.2.1
  | setB v =>
    refine ⟨h.1, ?_, ?_, h.2.2.2.1, h.2.2.2.2⟩
    · show ((setBValsT v st).wCombined).length = 3 * st.out_size
      simp only [setBValsT, List.length_mapIdx]
      exact h.2.1
    · show ((setBValsT v st).uCombined).length = 3 * st.out_size
      simp only [setBValsT, List.length_mapIdx]
      exact h.2.2.1
  | step x =>
    have hs := gruStep_wf sigma tau st x h (hop x rfl)
    show gruWF (gruProcess sigma tau st x).1
    unfold gruProcess
    cases hm : (gruStep sigma tau st x).mode <;> simp only [hm] <;> exact hs

theorem applyOps_wf {α : Type} [LinearOrderedField α] [FloorRing α]
    (sigma tau : α → α) (ops : List (GOp α)) (st : GRUT α) (h : gruWF st)
    (hops : ∀ x, GOp.step x ∈ ops → x.length = st.in_size) :
    gruWF (applyOps sigma tau ops st) := by
  induction ops generalizing st with
  | nil => exact h
  | cons op ops ih =>
    have h1 : gruWF (applyOp sigma tau st op) :=
      applyOp_wf sigma tau st op h (fun x hx => hops x (by rw [hx]; exact List.mem_cons_self _ _))
    have hins : (applyOp sigma tau st op).in_size = st.in_size :=
      (applyOp_sizes sigma tau st op).1
    have h2 := ih (applyOp sigma tau st op) h1
      (fun x hx => (hops x (List.mem_cons_of_mem _ hx)).trans hins.symm)
    simpa only [applyOps, List.foldl_cons] using h2

/-- The setter operations available on the dynamic `GRULayer` in the excerpt. -/
inductive DOp (α : Type) where
  | setW : List (List α) → DOp α
  | setU : List (List α) → DOp α
  | setB : List (List α) → DOp α

/-- Interpretation of the dynamic-layer setters. -/
def applyDOp (st : GRULayerDyn α) : DOp α → GRULayerDyn α
  | DOp.setW v => setWValsDyn v st
  | DOp.setU v => setUValsDyn v st
  | DOp.setB v => setBValsDyn v st

/-- A session on the dynamic layer. -/
def applyDOps (dops : List (DOp α)) (st : GRULayerDyn α) : GRULayerDyn α :=
  dops.foldl applyDOp st

theorem applyDOps_extended (dops : List (DOp α)) (st : GRULayerDyn α) :
    (applyDOps dops st).extendedInVec = st.extendedInVec
    ∧ (applyDOps dops st).extendedHt1 = st.extendedHt1
    ∧ (applyDOps dops st).in_size = st.in_size
    ∧ (applyDOps dops st).out_size = st.out_size := by
  induction dops generalizing st with
  | nil => exact ⟨rfl, rfl, rfl, rfl⟩
  | cons d dops ih =>
    have h1 : (applyDOp st d).extendedInVec = st.extendedInVec
        ∧ (applyDOp st d).extendedHt1 = st.extendedHt1
        ∧ (applyDOp st d).in_size = st.in_size
        ∧ (applyDOp st d).out_size = st.out_size := by
      cases d <;> exact ⟨rfl, rfl, rfl, rfl⟩
    have h2 := ih (applyDOp st d)
    simp only [applyDOps, List.foldl_cons] at h2 ⊢
    exact ⟨h2.1.trans h1.1, h2.2.1.trans h1.2.1,
      h2.2.2.1.trans h1.2.2.1, h2.2.2.2.trans h1.2.2.2⟩

/-- C7: the appended constant slot of each extended vector
(`extendedInVec[in_size]`, `extendedHt1[out_size]`) is set to exactly `1` at
construction, in the static and the dynamic layer, and remains exactly `1`
after every sequence of subsequent operations (`reset`, `prepare`, the weight
setters, and forward steps fed inputs of length `in_size`). -/
theorem extended_one_invariant :
    (∀ (i o : ℕ) (m : SRCMode),
      (mkGRUT i o m : GRUT ℚ).extendedInVec.getD i 0 = 1
        ∧ (mkGRUT i o m : GRUT ℚ).extendedHt1.getD o 0 = 1)
    ∧ (∀ (i o : ℕ) (m : SRCMode) (sigma tau : ℚ → ℚ) (ops : List (GOp ℚ)),
        (∀ x, GOp.step x ∈ ops → x.length = i) →
        (applyOps sigma tau ops (mkGRUT i o m)).extendedInVec.getD i 0 = 1
          ∧ (applyOps sigma tau ops (mkGRUT i o m)).extendedHt1.getD o 0 = 1)
    ∧ (∀ (i o : ℕ) (dops : List (DOp ℚ)),
        (applyDOps dops (mkGRULayerDyn i o)).extendedInVec.getD i 0 = 1
          ∧ (applyDOps dops (mkGRULayerDyn i o)).extendedHt1.getD o 0 = 1) := by
  refine ⟨fun i o m => ?_, fun i o m sigma tau ops hops => ?_, fun i o dops => ?_⟩
  · have hwf := mkGRUT_wf (α := ℚ) i o m
    have hsz := mkGRUT_sizes (α := ℚ) i o m
    have h4 := hwf.2.2.2.1
    have h5 := hwf.2.2.2.2
    rw [hsz.1] at h4
    rw [hsz.2.1] at h5
    exact ⟨h4, h5⟩
  · have hwf := applyOps_wf sigma tau ops (mkGRUT i o m) (mkGRUT_wf i o m)
      (fun x hx => (hops x hx).trans (mkGRUT_sizes (α := ℚ) i o m).1.symm)
    have hsz := applyOps_sizes sigma tau ops (mkGRUT i o m)
    have hi : (applyOps sigma tau ops (mkGRUT i o m)).in_size = i :=
      hsz.1.trans (mkGRUT_sizes (α := ℚ) i o m).1
    have ho : (applyOps sigma tau ops (mkGRUT i o m)).out_size = o :=
      hsz.2.1.trans (mkGRUT_sizes (α := ℚ) i o m).2.1
    have h4 := hwf.2.2.2.1
    have h5 := hwf.2.2.2.2
    rw [hi] at h4
    rw [ho] at h5
    exact ⟨h4, h5⟩
  · have hext := applyDOps_extended (α := ℚ) dops (mkGRULayerDyn i o)
    constructor
    · rw [hext.1]
      show ((List.replicate (i + 1) (0:ℚ)).set i 1).getD i 0 = 1
      have hlen : i < ((List.replicate (i + 1) (0:ℚ)).set i 1).length := by simp
      rw [List.getD_eq_getElem _ _ hlen, List.getElem_set_self]
    · rw [hext.2.1]
      show ((List.replicate (o + 1) (0:ℚ)).set o 1).getD o 0 = 1
      have hlen : o < ((List.replicate (o + 1) (0:ℚ)).set o 1).length := by simp
      rw [List.getD_eq_getElem _ _ hlen, List.getElem_set_self]

/-- Witness for C7: a concrete session — configure, prepare, step, reset — on
a `1×1` layer, with the constant slot still `1` afterwards. -/
theorem extended_one_invariant_witness :
    (applyOps id id [GOp.setW [[1,0,1]], GOp.prepNI 2, GOp.step [5], GOp.reset]
        (mkGRUT 1 1 SRCMode.NoInterp : GRUT ℚ)).extendedInVec.getD 1 0 = 1
    ∧ (applyOps id id [GOp.setW [[1,0,1]], GOp.prepNI 2, GOp.step [5], GOp.reset]
        (mkGRUT 1 1 SRCMode.NoInterp : GRUT ℚ)).extendedHt1.getD 1 0 = 1 :=
  extended_one_invariant.2.1 1 1 SRCMode.NoInterp id id
    [GOp.setW [[1,0,1]], GOp.prepNI 2, GOp.step [5], GOp.reset]
    (by
      intro x hx
      simp only [List.mem_cons, List.not_mem_nil, or_false] at hx
      rcases hx with h | h | h | h <;> first
        | (cases h; rfl)
        | exact absurd h (by simp))

/-! ## Claim C9: copy semantics of the dynamic GRU layer -/

theorem getD_replicate (n : ℕ) (a d : β) (k : ℕ) :
    (List.replicate n a).getD k d = if k < n then a else d := by
  by_cases h : k < n
  · rw [if_pos h, List.getD_eq_getElem _ _ (by simpa using h), List.getElem_replicate]
  · rw [if_neg h, List.getD_eq_default _ _ (by simpa using h)]

/-- C9: copy-constructing a dynamic `GRULayer` yields a layer with the source's
sizes and all-zero weight matrices (no weight value is copied); copy-assignment
as written (`return *this = GRULayer(other);`) re-enters itself on the
temporary and never completes, at any recursion depth. -/
theorem gru_copy_semantics (other t : GRULayerDyn ℚ) (fuel : ℕ) :
    (copyGRULayer other).in_size = other.in_size
    ∧ (copyGRULayer other).out_size = other.out_size
    ∧ (∀ k i, ((copyGRULayer other).wCombined.getD k []).getD i 0 = 0)
    ∧ (∀ k i, ((copyGRULayer other).uCombined.getD k []).getD i 0 = 0)
    ∧ assignGRULayer fuel t other = none := by
  refine ⟨rfl, rfl, fun k i => ?_, fun k i => ?_, ?_⟩
  · show ((List.replicate (3 * other.out_size)
      (List.replicate (other.in_size + 1) (0:ℚ))).getD k []).getD i 0 = 0
    rw [getD_replicate]
    by_cases h : k < 3 * other.out_size
    · rw [if_pos h, getD_replicate]
      by_cases h2 : i < other.in_size + 1
      · rw [if_pos h2]
      · rw [if_neg h2]
    · rw [if_neg h]
      rfl
  · show ((List.replicate (3 * other.out_size)
      (List.replicate (other.out_size + 1) (0:ℚ))).getD k []).getD i 0 = 0
    rw [getD_replicate]
    by_cases h : k < 3 * other.out_size
    · rw [if_pos h, getD_replicate]
      by_cases h2 : i < other.out_size + 1
      · rw [if_pos h2]
      · rw [if_neg h2]
    · rw [if_neg h]
      rfl
  · induction fuel generalizing other with
    | zero => rfl
    | succ n ih => exact ih (copyGRULayer other)

/-! ## Claim C2: the GRU recurrence -/

theorem getD_take (l : List β) (n j : ℕ) (d : β) (h : j < n) :
    (l.take n).getD j d = l.getD j d := by
  simp [List.getD_eq_getElem?_getD, List.getElem?_take, h]

theorem getD_drop (l : List β) (n j : ℕ) (d : β) :
    (l.drop n).getD j d = l.getD (n + j) d := by
  simp [List.getD_eq_getElem?_getD, List.getElem?_drop]

theorem getD_zipWith (f : β → β → β) (l1 l2 : List β) (j : ℕ) (d : β)
    (h1 : j < l1.length) (h2 : j < l2.length) :
    (List.zipWith f l1 l2).getD j d = f (l1.getD j d) (l2.getD j d) := by
  have hz : j < (List.zipWith f l1 l2).length := by
    rw [List.length_zipWith]
    omega
  rw [List.getD_eq_getElem _ _ hz, List.getElem_zipWith,
    List.getD_eq_getElem _ _ h1, List.getD_eq_getElem _ _ h2]

/-- The spec's per-unit GRU recurrence (§4.3, steps 1-7), written directly
from its words: gate pre-activations `g_x = W·x̂`, `g_h = U·ĥ`, blocks in the
order reset/update/candidate, `r = sigma(r_x + r_h)`, `z = sigma(z_x + z_h)`,
`n = tau(n_x + r·n_h)`, `h' = (1-z)·n + z·h`.  Stated per output unit `j`. -/
def gruGate (sigma tau : α → α) (st : GRUT α) (x : List α) (j : ℕ) : α :=
  let gx := matVec st.wCombined (x.take st.in_size ++ st.extendedInVec.drop st.in_size)
  let gh := matVec st.uCombined (st.outs.take st.out_size ++ st.extendedHt1.drop st.out_size)
  let r := sigma (gx.getD j 0 + gh.getD j 0)
  let z := sigma (gx.getD (st.out_size + j) 0 + gh.getD (st.out_size + j) 0)
  let n := tau (gx.getD (2 * st.out_size + j) 0 + r * gh.getD (2 * st.out_size + j) 0)
  (1 - z) * n + z * st.outs.getD j 0

theorem matVec_length (m : List (List α)) (v : List α) :
    (matVec m v).length = m.length := by
  simp [matVec]


theorem gate_chain (sigma tau : α → α) (gx gh outs : List α) (o j : ℕ)
    (hgxl : gx.length = 3 * o) (hghl : gh.length = 3 * o)
    (houts : outs.length = o) (hj : j < o) :
    (List.zipWith (fun a b => a + b)
      (List.zipWith (fun zi ni => (1 - zi) * ni)
        (List.zipWith (fun a b => sigma (a + b)) ((gx.drop o).take o) ((gh.drop o).take o))
        (List.zipWith (fun a b => tau (a + b)) ((gx.drop (2 * o)).take o)
          (List.zipWith (fun a b => a * b)
            (List.zipWith (fun a b => sigma (a + b)) (gx.take o) (gh.take o))
            ((gh.drop (2 * o)).take o))))
      (List.zipWith (fun a b => a * b)
        (List.zipWith (fun a b => sigma (a + b)) ((gx.drop o).take o) ((gh.drop o).take o))
        outs)).getD j 0
    = (1 - sigma (gx.getD (o + j) 0 + gh.getD (o + j) 0))
        * tau (gx.getD (2 * o + j) 0
          + sigma (gx.getD j 0 + gh.getD j 0) * gh.getD (2 * o + j) 0)
      + sigma (gx.getD (o + j) 0 + gh.getD (o + j) 0) * outs.getD j 0 := by
  have bgx1 : j < ((gx.drop o).take o).length := by
    rw [List.length_take, List.length_drop, hgxl]; omega
  have bgh1 : j < ((gh.drop o).take o).length := by
    rw [List.length_take, List.length_drop, hghl]; omega
  have bgx2 : j < ((gx.drop (2 * o)).take o).length := by
    rw [List.length_take, List.length_drop, hgxl]; omega
  have bgh2 : j < ((gh.drop (2 * o)).take o).length := by
    rw [List.length_take, List.length_drop, hghl]; omega
  have bgx0 : j < (gx.take o).length := by
    rw [List.length_take, hgxl]; omega
  have bgh0 : j < (gh.take o).length := by
    rw [List.length_take, hghl]; omega
  have houtsj : j < outs.length := by omega
  have hzj : (List.zipWith (fun a b => sigma (a + b))
      ((gx.drop o).take o) ((gh.drop o).take o)).getD j 0
      = sigma (gx.getD (o + j) 0 + gh.getD (o + j) 0) := by
    rw [getD_zipWith _ _ _ _ _ bgx1 bgh1, getD_take _ _ _ _ hj,
      getD_take _ _ _ _ hj, getD_drop, getD_drop]
  have hrj : (List.zipWith (fun a b => sigma (a + b))
      (gx.take o) (gh.take o)).getD j 0
      = sigma (gx.getD j 0 + gh.getD j 0) := by
    rw [getD_zipWith _ _ _ _ _ bgx0 bgh0, getD_take _ _ _ _ hj, getD_take _ _ _ _ hj]
  have hbz : j < (List.zipWith (fun a b => sigma (a + b))
      ((gx.drop o).take o) ((gh.drop o).take o)).length := by
    rw [List.length_zipWith]; omega
  have hbr : j < (List.zipWith (fun a b => sigma (a + b))
      (gx.take o) (gh.take o)).length := by
    rw [List.length_zipWith]; omega
  have hnj : (List.zipWith (fun a b => tau (a + b)) ((gx.drop (2 * o)).take o)
      (List.zipWith (fun a b => a * b)
        (List.zipWith (fun a b => sigma (a + b)) (gx.take o) (gh.take o))
        ((gh.drop (2 * o)).take o))).getD j 0
      = tau (gx.getD (2 * o + j) 0
          + sigma (gx.getD j 0 + gh.getD j 0) * gh.getD (2 * o + j) 0) := by
    rw [getD_zipWith _ _ _ _ _ bgx2 (by rw [List.length_zipWith]; omega)]
    rw [getD_zipWith _ _ _ _ _ hbr bgh2]
    rw [hrj, getD_take _ _ _ _ hj, getD_take _ _ _ _ hj, getD_drop, getD_drop]
  have hbn : j < (List.zipWith (fun a b => tau (a + b)) ((gx.drop (2 * o)).take o)
      (List.zipWith (fun a b => a * b)
        (List.zipWith (fun a b => sigma (a + b)) (gx.take o) (gh.take o))
        ((gh.drop (2 * o)).take o))).length := by
    rw [List.length_zipWith, List.length_zipWith]; omega
  have hAj : (List.zipWith (fun zi ni => (1 - zi) * ni)
      (List.zipWith (fun a b => sigma (a + b)) ((gx.drop o).take o) ((gh.drop o).take o))
      (List.zipWith (fun a b => tau (a + b)) ((gx.drop (2 * o)).take o)
        (List.zipWith (fun a b => a * b)
          (List.zipWith (fun a b => sigma (a + b)) (gx.take o) (gh.take o))
          ((gh.drop (2 * o)).take o)))).getD j 0
      = (1 - sigma (gx.getD (o + j) 0 + gh.getD (o + j) 0))
        * tau (gx.getD (2 * o + j) 0
          + sigma (gx.getD j 0 + gh.getD j 0) * gh.getD (2 * o + j) 0) := by
    rw [getD_zipWith _ _ _ _ _ hbz hbn, hzj, hnj]
  have hBj : (List.zipWith (fun a b => a * b)
      (List.zipWith (fun a b => sigma (a + b)) ((gx.drop o).take o) ((gh.drop o).take o))
      outs).getD j 0
      = sigma (gx.getD (o + j) 0 + gh.getD (o + j) 0) * outs.getD j 0 := by
    rw [getD_zipWith _ _ _ _ _ hbz houtsj, hzj]
  rw [getD_zipWith _ _ _ _ _ (by rw [List.length_zipWith]; omega)
      (by rw [List.length_zipWith]; omega), hAj, hBj]

theorem gruStep_getD (sigma tau : α → α) (st : GRUT α) (x : List α) (j : ℕ)
    (h1 : st.outs.length = st.out_size)
    (h2 : st.wCombined.length = 3 * st.out_size)
    (h3 : st.uCombined.length = 3 * st.out_size)
    (hj : j < st.out_size) :
    (gruStep sigma tau st x).outs.getD j 0 = gruGate sigma tau st x j := by
  simp only [gruStep, gruGate]
  exact gate_chain sigma tau _ _ _ _ j
    (by rw [matVec_length, h2]) (by rw [matVec_length, h3]) h1 hj

/-- C2: every GRU step computes, per output unit, `r = sigmoid(r_x + r_h)`,
`z = sigmoid(z_x + z_h)`, `n = tanh(n_x + r·n_h)` and persists
`h' = (1-z)·n + z·h` (the first conjunct equates the step with `gruGate`,
which transcribes the spec's recurrence verbatim); concretely, with
`out_size = 1`, all weights zero except the `W` candidate-row weight `= 1`,
zero biases, input `x = 1` and prior `h = 0`, one step yields
`h' = 0.5·tanh 1` — exactly, hence within the `1e-6` tolerance. -/
theorem gru_step_recurrence :
    (∀ (sigma tau : ℚ → ℚ) (st : GRUT ℚ) (x : List ℚ) (j : ℕ),
        st.outs.length = st.out_size → st.wCombined.length = 3 * st.out_size →
        st.uCombined.length = 3 * st.out_size → j < st.out_size →
        (gruStep sigma tau st x).outs.getD j 0 = gruGate sigma tau st x j)
    ∧ ((gruStep (fun v => 1 / (1 + Real.exp (-v))) Real.tanh
          (setWValsT [[0,0,1]] (mkGRUT 1 1 SRCMode.None : GRUT ℝ)) [1]).outs
        = [Real.tanh 1 / 2]
      ∧ |(gruStep (fun v => 1 / (1 + Real.exp (-v))) Real.tanh
          (setWValsT [[0,0,1]] (mkGRUT 1 1 SRCMode.None : GRUT ℝ)) [1]).outs.getD 0 0
          - 1/2 * Real.tanh 1| ≤ 1/1000000) := by
  have hexp : Real.exp (-(0:ℝ)) = 1 := by
    rw [neg_zero, Real.exp_zero]
  have hc : (gruStep (fun v => 1 / (1 + Real.exp (-v))) Real.tanh
      (setWValsT [[0,0,1]] (mkGRUT 1 1 SRCMode.None : GRUT ℝ)) [1]).outs
      = [Real.tanh 1 / 2] := by
    simp [gruStep, setWValsT, mkGRUT, reset, matVec, List.replicate, hexp]
    norm_num
    ring_nf
  refine ⟨fun sigma tau st x j a b c d => gruStep_getD sigma tau st x j a b c d, hc, ?_⟩
  rw [hc]
  have : Real.tanh 1 / 2 - 1/2 * Real.tanh 1 = 0 := by ring
  simp only [List.getD_cons_zero, this, abs_zero]
  norm_num

/-- Witness for C2: the recurrence equation applied at a concrete `1×1` layer
over `ℚ` with identity nonlinearities. -/
theorem gru_step_recurrence_witness :
    (gruStep id id (setWValsT [[0,0,1]] (mkGRUT 1 1 SRCMode.None : GRUT ℚ)) [1]).outs.getD 0 0
      = gruGate id id (setWValsT [[0,0,1]] (mkGRUT 1 1 SRCMode.None : GRUT ℚ)) [1] 0 :=
  gru_step_recurrence.1 id id (setWValsT [[0,0,1]] (mkGRUT 1 1 SRCMode.None : GRUT ℚ)) [1] 0
    (by decide) (by decide) (by decide) (by decide)

/-! ## Claim C8: replay determinism -/

theorem gruStep_in_size (sigma tau : α → α) (st : GRUT α) (x : List α) :
    (gruStep sigma tau st x).in_size = st.in_size := rfl

theorem gruStep_out_size (sigma tau : α → α) (st : GRUT α) (x : List α) :
    (gruStep sigma tau st x).out_size = st.out_size := rfl

theorem gruStep_mode (sigma tau : α → α) (st : GRUT α) (x : List α) :
    (gruStep sigma tau st x).mode = st.mode := rfl

theorem gruStep_uCombined (sigma tau : α → α) (st : GRUT α) (x : List α) :
    (gruStep sigma tau st x).uCombined = st.uCombined := rfl

theorem gruStep_outs_delayed (sigma tau : α → α) (st : GRUT α) (x : List α) :
    (gruStep sigma tau st x).outs_delayed = st.outs_delayed := rfl

theorem gruStep_delayWriteIdx (sigma tau : α → α) (st : GRUT α) (x : List α) :
    (gruStep sigma tau st x).delayWriteIdx = st.delayWriteIdx := rfl

theorem gruStep_delayMult (sigma tau : α → α) (st : GRUT α) (x : List α) :
    (gruStep sigma tau st x).delayMult = st.delayMult := rfl

theorem gruStep_delayPlus1Mult (sigma tau : α → α) (st : GRUT α) (x : List α) :
    (gruStep sigma tau st x).delayPlus1Mult = st.delayPlus1Mult := rfl

/-- Two instances share their configuration: sizes, mode, weights, delay
bookkeeping, the tails of the extended vectors (everything beyond the slots
the forward step overwrites), and the delay-buffer capacity. -/
def sameConfig (st1 st2 : GRUT α) : Prop :=
  st1.in_size = st2.in_size
  ∧ st1.out_size = st2.out_size
  ∧ st1.mode = st2.mode
  ∧ st1.wCombined = st2.wCombined
  ∧ st1.uCombined = st2.uCombined
  ∧ st1.delayWriteIdx = st2.delayWriteIdx
  ∧ st1.delayMult = st2.delayMult
  ∧ st1.delayPlus1Mult = st2.delayPlus1Mult
  ∧ st1.extendedInVec.drop st1.in_size = st2.extendedInVec.drop st2.in_size
  ∧ st1.extendedHt1.drop st1.out_size = st2.extendedHt1.drop st2.out_size
  ∧ st1.outs_delayed.length = st2.outs_delayed.length

/-- The replay bisimulation: shared configuration, equal hidden state, and
equal delay buffers (except in pass-through mode, where the buffer is never
read). -/
def gruR (st1 st2 : GRUT α) : Prop :=
  sameConfig st1 st2 ∧ st1.outs = st2.outs
  ∧ (st1.mode = SRCMode.None ∨ st1.outs_delayed = st2.outs_delayed)

theorem gruStep_congr (sigma tau : α → α) (st1 st2 : GRUT α) (x : List α)
    (h : gruR st1 st2) :
    (gruStep sigma tau st1 x).outs = (gruStep sigma tau st2 x).outs
    ∧ (gruStep sigma tau st1 x).extendedInVec = (gruStep sigma tau st2 x).extendedInVec
    ∧ (gruStep sigma tau st1 x).extendedHt1 = (gruStep sigma tau st2 x).extendedHt1 := by
  obtain ⟨⟨hin, hout, _, hw, hu, _, _, _, hdiv, hdht, _⟩, houts, _⟩ := h
  have hxhat : x.take st1.in_size ++ st1.extendedInVec.drop st1.in_size
      = x.take st2.in_size ++ st2.extendedInVec.drop st2.in_size := by
    rw [hdiv, hin]
  have hhhat : st1.outs.take st1.out_size ++ st1.extendedHt1.drop st1.out_size
      = st2.outs.take st2.out_size ++ st2.extendedHt1.drop st2.out_size := by
    rw [hdht, houts, hout]
  refine ⟨?_, ?_, ?_⟩
  · show (gruStep sigma tau st1 x).outs = (gruStep sigma tau st2 x).outs
    simp only [gruStep]
    rw [hxhat, hhhat, hw, hu, houts, hout]
  · show (gruStep sigma tau st1 x).extendedInVec = (gruStep sigma tau st2 x).extendedInVec
    simp only [gruStep]
    exact hxhat
  · show (gruStep sigma tau st1 x).extendedHt1 = (gruStep sigma tau st2 x).extendedHt1
    simp only [gruStep]
    exact hhhat

theorem gruProcess_congr (sigma tau : α → α) (st1 st2 : GRUT α) (x : List α)
    (h : gruR st1 st2) :
    (gruProcess sigma tau st1 x).2 = (gruProcess sigma tau st2 x).2
    ∧ gruR (gruProcess sigma tau st1 x).1 (gruProcess sigma tau st2 x).1 := by
  have hs := gruStep_congr sigma tau st1 st2 x h
  obtain ⟨⟨hin, hout, hmode, hw, hu, hwi, hdm, hdp, _, _, hdlen⟩, houts, hdel⟩ := h
  have hR1 : gruR (gruStep sigma tau st1 x) (gruStep sigma tau st2 x) := by
    refine ⟨⟨?_, ?_, ?_, ?_, ?_, ?_, ?_, ?_, ?_, ?_, ?_⟩, hs.1, ?_⟩
    · simpa only [gruStep_in_size] using hin
    · simpa only [gruStep_out_size] using hout
    · simpa only [gruStep_mode] using hmode
    · show (gruStep sigma tau st1 x).wCombined = (gruStep sigma tau st2 x).wCombined
      simp only [gruStep]
      exact hw
    · simpa only [gruStep_uCombined] using hu
    · simpa only [gruStep_delayWriteIdx] using hwi
    · simpa only [gruStep_delayMult] using hdm
    · simpa only [gruStep_delayPlus1Mult] using hdp
    · simp only [gruStep_in_size]
      rw [hs.2.1, hin]
    · simp only [gruStep_out_size]
      rw [hs.2.2, hout]
    · simpa only [gruStep_outs_delayed] using hdlen
    · simp only [gruStep_mode, gruStep_outs_delayed]
      exact hdel
  obtain ⟨⟨hin1, hout1, hmode1, hw1, hu1, hwi1, hdm1, hdp1, hdiv1, hdht1, hdlen1⟩,
    houts1, hdel1⟩ := hR1
  cases hm : (gruStep sigma tau st1 x).mode with
  | None =>
    have hm2 : (gruStep sigma tau st2 x).mode = SRCMode.None := hmode1 ▸ hm
    simp only [gruProcess, hm, hm2]
    exact ⟨houts1, ⟨hin1, hout1, hmode1, hw1, hu1, hwi1, hdm1, hdp1, hdiv1, hdht1, hdlen1⟩,
      houts1, Or.inl hm⟩
  | NoInterp =>
    have hm2 : (gruStep sigma tau st2 x).mode = SRCMode.NoInterp := hmode1 ▸ hm
    have hdeq : (gruStep sigma tau st1 x).outs_delayed
        = (gruStep sigma tau st2 x).outs_delayed := by
      rcases hdel1 with hcontra | hok
      · rw [hm] at hcontra
        exact absurd hcontra (by simp)
      · exact hok
    simp only [gruProcess, hm, hm2]
    refine ⟨?_, ⟨hin1, hout1, rfl, hw1, hu1, hwi1, hdm1, hdp1, hdiv1, hdht1, ?_⟩, houts1, ?_⟩
    · rw [hdeq, houts1, hout1]
    · show ((gruStep sigma tau st1 x).outs_delayed ++ [(gruStep sigma tau st1 x).outs]).tail.length
        = ((gruStep sigma tau st2 x).outs_delayed ++ [(gruStep sigma tau st2 x).outs]).tail.length
      rw [hdeq, houts1]
    · refine Or.inr ?_
      show ((gruStep sigma tau st1 x).outs_delayed ++ [(gruStep sigma tau st1 x).outs]).tail
        = ((gruStep sigma tau st2 x).outs_delayed ++ [(gruStep sigma tau st2 x).outs]).tail
      rw [hdeq, houts1]
  | LinInterp =>
    have hm2 : (gruStep sigma tau st2 x).mode = SRCMode.LinInterp := hmode1 ▸ hm
    have hdeq : (gruStep sigma tau st1 x).outs_delayed
        = (gruStep sigma tau st2 x).outs_delayed := by
      rcases hdel1 with hcontra | hok
      · rw [hm] at hcontra
        exact absurd hcontra (by simp)
      · exact hok
    simp only [gruProcess, hm, hm2]
    refine ⟨?_, ⟨hin1, hout1, rfl, hw1, hu1, hwi1, hdm1, hdp1, hdiv1, hdht1, ?_⟩, houts1, ?_⟩
    · rw [hdeq, houts1, hout1, hwi1, hdm1, hdp1]
    · show ((gruStep sigma tau st1 x).outs_delayed.tail ++ [(gruStep sigma tau st1 x).outs]).length
        = ((gruStep sigma tau st2 x).outs_delayed.tail ++ [(gruStep sigma tau st2 x).outs]).length
      rw [hdeq, houts1]
    · refine Or.inr ?_
      show (gruStep sigma tau st1 x).outs_delayed.tail ++ [(gruStep sigma tau st1 x).outs]
        = (gruStep sigma tau st2 x).outs_delayed.tail ++ [(gruStep sigma tau st2 x).outs]
      rw [hdeq, houts1]

theorem runGRU_congr (sigma tau : α → α) (xs : List (List α)) (st1 st2 : GRUT α)
    (h : gruR st1 st2) :
    runGRU sigma tau st1 xs = runGRU sigma tau st2 xs := by
  induction xs generalizing st1 st2 with
  | nil => rfl
  | cons x xs ih =>
    have hp := gruProcess_congr sigma tau st1 st2 x h
    simp only [runGRU]
    rw [hp.1]
    exact congrArg _ (ih _ _ hp.2)

theorem reset_delayWriteIdx (st : GRUT α) :
    (reset st).delayWriteIdx = st.delayWriteIdx := by
  unfold reset
  by_cases h : st.mode = SRCMode.None <;> simp [h]

theorem reset_delayMult (st : GRUT α) : (reset st).delayMult = st.delayMult := by
  unfold reset
  by_cases h : st.mode = SRCMode.None <;> simp [h]

theorem reset_delayPlus1Mult (st : GRUT α) :
    (reset st).delayPlus1Mult = st.delayPlus1Mult := by
  unfold reset
  by_cases h : st.mode = SRCMode.None <;> simp [h]

theorem map_const_eq (l : List β) (c : γ) :
    l.map (fun _ => c) = List.replicate l.length c := by
  induction l with
  | nil => rfl
  | cons a l ih => simp [ih, List.replicate_succ]

theorem reset_R (st1 st2 : GRUT α) (h : sameConfig st1 st2) :
    gruR (reset st1) (reset st2) := by
  obtain ⟨hin, hout, hmode, hw, hu, hwi, hdm, hdp, hdiv, hdht, hdlen⟩ := h
  refine ⟨⟨?_, ?_, ?_, ?_, ?_, ?_, ?_, ?_, ?_, ?_, ?_⟩, ?_, ?_⟩
  · rw [reset_in_size, reset_in_size]
    exact hin
  · rw [reset_out_size, reset_out_size]
    exact hout
  · rw [reset_mode, reset_mode]
    exact hmode
  · rw [reset_wCombined, reset_wCombined]
    exact hw
  · rw [reset_uCombined, reset_uCombined]
    exact hu
  · rw [reset_delayWriteIdx, reset_delayWriteIdx]
    exact hwi
  · rw [reset_delayMult, reset_delayMult]
    exact hdm
  · rw [reset_delayPlus1Mult, reset_delayPlus1Mult]
    exact hdp
  · rw [reset_extendedInVec, reset_extendedInVec, reset_in_size, reset_in_size]
    exact hdiv
  · rw [reset_extendedHt1, reset_extendedHt1, reset_out_size, reset_out_size]
    exact hdht
  · rw [reset_outs_delayed_length, reset_outs_delayed_length]
    exact hdlen
  · rw [reset_outs, reset_outs, hout]
  · by_cases hm : st1.mode = SRCMode.None
    · exact Or.inl ((reset_mode st1).trans hm)
    · have hm2 : ¬st2.mode = SRCMode.None := by
        rw [← hmode]
        exact hm
      refine Or.inr ?_
      rw [reset_outs_delayed_of_ne st1 hm, reset_outs_delayed_of_ne st2 hm2,
        map_const_eq, map_const_eq, hdlen, hout]

theorem memcpyCount_length (s n : ℕ) (mix : α → α → α) (dst src : List α) :
    (memcpyCount s n mix dst src).length = dst.length := by
  simp [memcpyCount]

theorem memcpyCount_memcpyCount (s n : ℕ) (mix : α → α → α)
    (hmix : ∀ a b c, mix a (mix b c) = mix a c) (dst y x : List α) :
    memcpyCount s n mix (memcpyCount s n mix dst y) x
      = memcpyCount s n mix dst x := by
  apply List.ext_getElem
  · simp [memcpyCount]
  · intro i h1 h2
    simp only [memcpyCount, List.getElem_mapIdx]
    by_cases hful : (i + 1) * s ≤ n
    · simp [hful]
    · by_cases hpar : i * s < n
      · simp [hful, hpar, hmix]
      · simp [hful, hpar]

theorem applyForwardsP1_fields (s : ℕ) (mix : α → α → α) (hist : List (List α))
    (st : DenseP1 α) :
    (applyForwardsP1 s mix hist st).weights = st.weights
    ∧ (applyForwardsP1 s mix hist st).in_size = st.in_size := by
  induction hist generalizing st with
  | nil => exact ⟨rfl, rfl⟩
  | cons y hist ih =>
    have h2 := ih ((denseForwardP1 s mix st y).1)
    simp only [applyForwardsP1, List.foldl_cons] at h2 ⊢
    exact ⟨h2.1.trans rfl, h2.2.trans rfl⟩

theorem applyForwardsP1_memcpy (s : ℕ) (mix : α → α → α)
    (hmix : ∀ a b c, mix a (mix b c) = mix a c) (hist : List (List α))
    (st : DenseP1 α) (x : List α) :
    memcpyCount s st.in_size mix (applyForwardsP1 s mix hist st).inVec x
      = memcpyCount s st.in_size mix st.inVec x := by
  induction hist generalizing st with
  | nil => rfl
  | cons y hist ih =>
    have h2 := ih ((denseForwardP1 s mix st y).1)
    simp only [applyForwardsP1, List.foldl_cons] at h2 ⊢
    exact h2.trans (memcpyCount_memcpyCount s st.in_size mix hmix st.inVec y x)

/-- C8: for every fixed configuration (weights, sizes, mode, delay setup),
replaying the same input sequence from freshly `reset()` instances produces
identical outputs at every step, whatever hidden state or buffered data either
instance accumulated before; and the part_001 dense `forward` output on a
given input is the same after every possible history of earlier `forward`
calls — for every element width and every byte-mixing semantics obeying the
real `memcpy` law `mix a (mix b c) = mix a c` (overwriting a mixed slot again
leaves no trace of the middle write), stale `inVec` contents never reach the
output. -/
theorem replay_determinism :
    (∀ (sigma tau : ℚ → ℚ) (st1 st2 : GRUT ℚ) (xs : List (List ℚ)),
        sameConfig st1 st2 →
        runGRU sigma tau (reset st1) xs = runGRU sigma tau (reset st2) xs)
    ∧ (∀ (sizeofT : ℕ) (mix : ℚ → ℚ → ℚ),
        (∀ a b c, mix a (mix b c) = mix a c) →
        ∀ (st : DenseP1 ℚ) (hist1 hist2 : List (List ℚ)) (x : List ℚ),
          (denseForwardP1 sizeofT mix (applyForwardsP1 sizeofT mix hist1 st) x).2
            = (denseForwardP1 sizeofT mix (applyForwardsP1 sizeofT mix hist2 st) x).2) := by
  constructor
  · intro sigma tau st1 st2 xs h
    exact runGRU_congr sigma tau xs (reset st1) (reset st2) (reset_R st1 st2 h)
  · intro s mix hmix st hist1 hist2 x
    have hw1 := applyForwardsP1_fields s mix hist1 st
    have hw2 := applyForwardsP1_fields s mix hist2 st
    simp only [denseForwardP1]
    rw [hw1.2, hw2.2, applyForwardsP1_memcpy s mix hmix hist1 st x,
      applyForwardsP1_memcpy s mix hmix hist2 st x, hw1.1, hw2.1]

/-- Witness for C8: two concretely different `1×1` delayed-mode instances with
the same configuration, replayed on a two-sample sequence; and a part_001
dense layer whose output on `[3,4]` is the same after a one-call history as
after none (4-byte scalars, with the keep-destination mixing semantics). -/
theorem replay_determinism_witness :
    (runGRU id id
        (reset (GRUT.mk 1 1 SRCMode.NoInterp [[0,0],[0,0],[1,0]] [[0,0],[0,0],[0,0]]
          [9,1] [8,1] [5] [[7]] 0 0 0 : GRUT ℚ)) [[1],[2]]
      = runGRU id id
        (reset (GRUT.mk 1 1 SRCMode.NoInterp [[0,0],[0,0],[1,0]] [[0,0],[0,0],[0,0]]
          [2,1] [4,1] [3] [[6]] 0 0 0 : GRUT ℚ)) [[1],[2]])
    ∧ ((denseForwardP1 4 (fun _ b => b)
        (applyForwardsP1 4 (fun _ b => b) [[9,9]] (mkDenseP1 2 1 : DenseP1 ℚ)) [3,4]).2
      = (denseForwardP1 4 (fun _ b => b)
        (applyForwardsP1 4 (fun _ b => b) [] (mkDenseP1 2 1 : DenseP1 ℚ)) [3,4]).2) :=
  ⟨replay_determinism.1 id id
      (GRUT.mk 1 1 SRCMode.NoInterp [[0,0],[0,0],[1,0]] [[0,0],[0,0],[0,0]]
        [9,1] [8,1] [5] [[7]] 0 0 0)
      (GRUT.mk 1 1 SRCMode.NoInterp [[0,0],[0,0],[1,0]] [[0,0],[0,0],[0,0]]
        [2,1] [4,1] [3] [[6]] 0 0 0)
      [[1],[2]] (by constructor <;> decide),
    replay_determinism.2 4 (fun _ b => b) (fun a b c => rfl)
      (mkDenseP1 2 1) [[9,9]] [] [3,4]⟩
